import Mathlib

/-!
Verification development for the trolly/jirate input-transmogrification
engine and the jira_fields rendering subsystem.

The transmogrification engine (name resolver, type coercer, driver) is
modelled from the specification; the field-rendering subsystem
(`trolly/jira_fields.py`) is embedded from the source.
-/

namespace Trolly

/-! ## Ordered dictionaries as association lists

Python `dict`/`OrderedDict` semantics: setting an existing key replaces the
value in place (keeping its position); setting a new key appends; lookup
finds the (unique) binding. -/

def odSet {α : Type} (d : List (String × α)) (k : String) (v : α) :
    List (String × α) :=
  match d with
  | [] => [(k, v)]
  | (k', v') :: rest =>
    if k' = k then (k, v) :: rest else (k', v') :: odSet rest k v

def odLookup {α : Type} (d : List (String × α)) (k : String) : Option α :=
  (d.find? (fun p => p.1 = k)).map (fun p => p.2)

/-! ## Data model of the transmogrification engine -/

/-- Modelled from the spec: the closed set of declared field types
(the engine itself, `jirate/jira_input.py`, is not under `src/`;
only its tests are). -/
inductive FieldType where
  | string
  | any
  | number
  | priority
  | option
  | array_of_options
  | version
  | array_of_versions
  | user
  | array_of_users
  | array_of_strings
  | array_of_groups
deriving DecidableEq, Repr

/-- Modelled from the spec: one catalog entry — canonical id, the set of
case-insensitive aliases, the declared type and (for enumerated types)
the ordered set of canonical allowed values. -/
structure FieldMetadata where
  id : String
  names : List String
  ftype : FieldType
  allowed_values : List String := []
deriving DecidableEq, Repr

/-- A scalar element of an API-shaped list value: plain string,
`{name: s}` object or `{value: s}` object. -/
inductive Item where
  | str (s : String)
  | nameObj (s : String)
  | valueObj (s : String)
deriving DecidableEq, Repr

/-- API-shaped output values: plain string, float, `{name: s}` object,
`{value: s}` object, or an ordered list of scalar elements. -/
inductive Val where
  | str (s : String)
  | num (q : Rat)
  | nameObj (s : String)
  | valueObj (s : String)
  | listOf (xs : List Item)
deriving DecidableEq, Repr

instance exceptDecEq {ε α : Type} [DecidableEq ε] [DecidableEq α] :
    DecidableEq (Except ε α) := fun a b =>
  match a, b with
  | .ok x, .ok y =>
    if h : x = y then .isTrue (by rw [h]) else .isFalse (by intro hc; cases hc; exact h rfl)
  | .error x, .error y =>
    if h : x = y then .isTrue (by rw [h]) else .isFalse (by intro hc; cases hc; exact h rfl)
  | .ok _, .error _ => .isFalse (by intro hc; cases hc)
  | .error _, .ok _ => .isFalse (by intro hc; cases hc)

/-- A validation error identifying the offending field and raw value. -/
structure TransError where
  fieldId : String
  raw : String
deriving DecidableEq, Repr

/-! ## String helpers (kernel-reducible, character-list based) -/

def lcChars (cs : List Char) : List Char := cs.map Char.toLower

/-- Case-insensitive comparison key of a string. -/
def lc (s : String) : String := ⟨lcChars s.data⟩

def isSpace (c : Char) : Bool := c = ' ' ∨ c = '\t' ∨ c = '\n' ∨ c = '\r'

def trimChars (cs : List Char) : List Char :=
  ((cs.dropWhile isSpace).reverse.dropWhile isSpace).reverse

def trimStr (s : String) : String := ⟨trimChars s.data⟩

def splitCharsOnComma : List Char → List (List Char)
  | [] => [[]]
  | c :: rest =>
    if c = ',' then [] :: splitCharsOnComma rest
    else
      match splitCharsOnComma rest with
      | [] => [[c]]
      | tok :: toks => (c :: tok) :: toks

/-- Modelled from the spec: split the raw string on commas (no quoting)
and trim each token. -/
def splitCommas (s : String) : List String :=
  (splitCharsOnComma s.data).map (fun cs => ⟨trimChars cs⟩)

/-- Find the canonical catalog casing of a candidate, matching
case-insensitively; `none` when the candidate is not an allowed value. -/
def findAllowed (allowed : List String) (tok : String) : Option String :=
  allowed.find? (fun a => lc a = lc tok)

def digitsToNat (cs : List Char) : Nat :=
  cs.foldl (fun n c => 10 * n + (c.toNat - '0'.toNat)) 0

/-- Modelled from the spec: parse the raw string as a floating-point
number (optional sign, integer digits, optional fractional digits);
`none` when not parseable. Rationals stand in for IEEE floats, which is
exact on the decimal strings the engine accepts. -/
def parseFloatQ (s : String) : Option Rat :=
  let cs := trimChars s.data
  let signAndRest : Int × List Char :=
    match cs with
    | '-' :: rest => (-1, rest)
    | '+' :: rest => (1, rest)
    | _ => (1, cs)
  let sign := signAndRest.1
  let body := signAndRest.2
  let intPart := body.takeWhile Char.isDigit
  let rest := body.dropWhile Char.isDigit
  match rest with
  | [] =>
    if intPart.isEmpty then none
    else some (Rat.normalize (sign * (digitsToNat intPart : Int)) 1 one_ne_zero)
  | '.' :: frac =>
    if frac.all Char.isDigit ∧ ¬(intPart.isEmpty ∧ frac.isEmpty) then
      some (Rat.normalize
        (sign * ((digitsToNat intPart * 10 ^ frac.length + digitsToNat frac : Nat) : Int))
        (10 ^ frac.length) (Nat.pow_pos (by decide)).ne')
    else none
  | _ => none

/-- Modelled from the spec: the fixed severity vocabulary of the
`priority` type (canonical casings). -/
def severities : List String :=
  ["Blocker", "Critical", "Major", "Normal", "Minor", "Trivial", "Undefined"]

/-- Title-case a raw word: first character upper-cased, the rest lowered. -/
def titleCase (s : String) : String :=
  match s.data with
  | [] => ⟨[]⟩
  | c :: rest => ⟨c.toUpper :: lcChars rest⟩

/-- Modelled from the spec: parse a quoted, comma-separated list;
double-quoted substrings are single tokens that may contain literal
commas and spaces, quotes are stripped; unbalanced quoting fails. -/
def splitQuoted : List Char → List Char → Bool → Option (List String)
  | [], cur, inQ => if inQ then none else some [⟨cur.reverse⟩]
  | c :: rest, cur, inQ =>
    if c = '"' then splitQuoted rest cur (!inQ)
    else if c = ',' ∧ ¬inQ then
      (splitQuoted rest [] false).map (fun toks => (⟨cur.reverse⟩ : String) :: toks)
    else splitQuoted rest (c :: cur) inQ

/-! ## Type coercer -/

/-- Modelled from the spec: `coerce(type, allowed_values, raw)` produces
the API-shaped value, or `none` for a validation failure (the driver
turns `none` into a `TransError` naming the field and the raw value). -/
def coerce (t : FieldType) (allowed : List String) (raw : String) : Option Val :=
  match t with
  | .string => some (.str raw)
  | .any => some (.str raw)
  | .number => (parseFloatQ raw).map Val.num
  | .priority =>
    let t := titleCase raw
    if t ∈ severities then some (.nameObj t) else none
  | .option => (findAllowed allowed raw).map Val.valueObj
  | .array_of_options =>
    ((splitCommas raw).mapM (findAllowed allowed)).map
      (fun cs => Val.listOf (cs.map Item.valueObj))
  | .version =>
    if (findAllowed allowed raw).isSome then some (.nameObj raw) else none
  | .array_of_versions =>
    some (.listOf ((splitCommas raw).map Item.nameObj))
  | .user => some (.str raw)
  | .array_of_users =>
    some (.listOf ((splitCommas raw).map Item.nameObj))
  | .array_of_strings =>
    (splitQuoted raw.data [] false).map (fun ss => Val.listOf (ss.map Item.str))
  | .array_of_groups =>
    some (.listOf ((splitCommas raw).map Item.nameObj))

/-! ## Name resolver -/

/-- Modelled from the spec: resolve a user-supplied key case-insensitively
against every alias in `names` of every catalog entry; `none` is
NOT_FOUND (the driver drops the key). -/
def resolve (cat : List FieldMetadata) (k : String) : Option FieldMetadata :=
  cat.find? (fun f => f.names.any (fun n => lc n = lc k))

/-! ## Transmogrify driver -/

/-- Modelled from the spec: the driver loop — resolve each key, skip
NOT_FOUND, coerce the raw value, write `output[field.id]`, and propagate
the first validation failure immediately (fail-fast). -/
def transmogrifyFrom (cat : List FieldMetadata) :
    List (String × String) → List (String × Val) →
    Except TransError (List (String × Val))
  | [], acc => .ok acc
  | kv :: rest, acc =>
    match resolve cat kv.1 with
    | none => transmogrifyFrom cat rest acc
    | some f =>
      match coerce f.ftype f.allowed_values kv.2 with
      | some v => transmogrifyFrom cat rest (odSet acc f.id v)
      | none => .error ⟨f.id, kv.2⟩

/-- Modelled from the spec: `transmogrify(catalog, **input_pairs)`. -/
def transmogrify (cat : List FieldMetadata) (input : List (String × String)) :
    Except TransError (List (String × Val)) :=
  transmogrifyFrom cat input []

/-- Modelled from the spec: the `fake_metadata` catalog of the test suite
(`jirate/tests` is not under `src/`); reconstructed from the tests'
expected inputs and outputs. -/
def fakeMetadata : List FieldMetadata :=
  [ { id := "description", names := ["description", "Description"], ftype := .string },
    { id := "priority", names := ["priority", "Priority"], ftype := .priority },
    { id := "customfield_1234567", names := ["customfield_1234567", "fixed_in_build"],
      ftype := .string },
    { id := "customfield_1234568", names := ["customfield_1234568", "score"],
      ftype := .number },
    { id := "customfield_1234569", names := ["customfield_1234569", "array_of_options"],
      ftype := .array_of_options, allowed_values := ["One", "Two", "Three"] },
    { id := "customfield_1234570", names := ["customfield_1234570", "array_of_versions"],
      ftype := .array_of_versions, allowed_values := ["1.0.1", "1.0.2"] },
    { id := "customfield_1234571", names := ["customfield_1234571", "array_of_users"],
      ftype := .array_of_users },
    { id := "customfield_1234572", names := ["customfield_1234572", "array_of_strings"],
      ftype := .array_of_strings },
    { id := "customfield_1234573", names := ["customfield_1234573", "array_of_groups"],
      ftype := .array_of_groups },
    { id := "customfield_1234574", names := ["customfield_1234574", "any_value"],
      ftype := .any },
    { id := "customfield_1234578", names := ["customfield_1234578", "option_value"],
      ftype := .option, allowed_values := ["One", "Two", "Three"] },
    { id := "customfield_1234580", names := ["customfield_1234580", "user_value", "User Value"],
      ftype := .user },
    { id := "customfield_1234581", names := ["customfield_1234581", "version_value"],
      ftype := .version, allowed_values := ["1.0.1", "1.0.2"] } ]

/-! ## The field-rendering subsystem (`trolly/jira_fields.py`)

Embedded from the source. Python values reaching the renderers are
modelled by `PyVal`; the builtin renderer functions, user-supplied
display callables and `str()` are abstracted as function parameters of
`render_field_data` (their outputs are plain text and play no role in
the verified properties). -/

/-- A Python value as seen by the rendering code (used only for its
truthiness and for being passed to renderers). -/
inductive PyVal where
  | none
  | bool (b : Bool)
  | int (n : Int)
  | str (s : String)
  | list (n : Nat)
  | dict (n : Nat)
deriving DecidableEq, Repr

/-- Python truthiness of a `PyVal` (`list`/`dict` carry their length). -/
def truthy : PyVal → Bool
  | .none => false
  | .bool b => b
  | .int n => n ≠ 0
  | .str s => s ≠ ""
  | .list n => n ≠ 0
  | .dict n => n ≠ 0

/-- A value of the `display` key of a field configuration: a boolean, the
name of a builtin renderer, or a custom callable (identified by name). -/
inductive Display where
  | bool (b : Bool)
  | str (s : String)
  | fn (name : String)
deriving DecidableEq, Repr

/-- A field definition dict of `jira_fields.py`: absent keys are `none`
(for `display`, `code`, `verbose`, `disabled`) or `false` (`immutable`,
matching the `'immutable' in bf and bf['immutable']` idiom). -/
structure FieldConfig where
  id : String
  name : String
  immutable : Bool := false
  verbose : Option Bool := none
  disabled : Option Bool := none
  display : Option Display := none
  code : Option String := none
deriving DecidableEq, Repr

/-- The keys of the `_field_renderers` table. -/
def fieldRendererNames : List String :=
  ["string", "key", "value", "name", "user", "user_list", "array",
   "email_list", "value_list", "name_list", "date"]

/-- The `_base_fields` list literal of `jira_fields.py` (before the
quiet fields are appended); custom display callables are identified by
their Python names. -/
def baseFieldsMain : List FieldConfig :=
  [ { id := "issuetype", name := "Issue Type", immutable := true,
      display := some (.str "name") },
    { id := "parent", name := "Parent", immutable := true,
      display := some (.str "key") },
    { id := "priority", name := "Priority", display := some (.fn "_priority") },
    { id := "created", name := "Created", immutable := true,
      verbose := some true, display := some (.fn "_created_updated") },
    { id := "duedate", name := "Due Date", display := some (.str "date") },
    { id := "updated", name := "Updated", immutable := true,
      display := some (.bool false) },
    { id := "assignee", name := "Assignee", display := some (.str "user") },
    { id := "status", name := "Status", display := some (.fn "_status_colorized") },
    { id := "resolution", name := "Resolution", display := some (.str "name") },
    { id := "resolutiondate", name := "Resolved", display := some (.str "date") },
    { id := "security", name := "Security Level", display := some (.str "name") },
    { id := "workratio", name := "Work Ratio", display := some (.fn "_ratio") },
    { id := "creator", name := "Creator", display := some (.str "user"),
      verbose := some true },
    { id := "reporter", name := "Reporter", verbose := some true,
      display := some (.fn "_reporter") },
    { id := "archivedby", name := "Archiver", verbose := some true,
      display := some (.str "user") },
    { id := "archiveddate", name := "Archived", verbose := some true,
      display := some (.str "date") },
    { id := "labels", name := "Labels", display := some (.str "array") },
    { id := "votes", name := "Votes", display := some (.fn "_votes") },
    { id := "components", name := "Component(s)", display := some (.str "name_list") },
    { id := "versions", name := "Affects Version(s)", display := some (.str "name_list") },
    { id := "fixVersions", name := "Fix Version(s)", display := some (.str "name_list") } ]

/-- The `_quiet_fields` list of `jira_fields.py`. -/
def quietFields : List String :=
  ["aggregateprogress", "aggregatetimeestimate", "aggregatetimeoriginalestimate",
   "aggregatetimespent", "archivedby", "archiveddate", "environment", "lastViewed",
   "progress", "project", "reporter", "timeestimate", "timeoriginalestimate",
   "timespent", "timetracking", "versions", "watches", "worklog", "workratio"]

/-- `_base_fields` after the module-load loop appended one
`{'id': f, 'name': f, 'display': False}` per quiet field. -/
def baseFields : List FieldConfig :=
  baseFieldsMain ++
    quietFields.map (fun f => { id := f, name := f, display := some (.bool false) })

/-- The `_ignore_fields` list of `jira_fields.py`. -/
def ignoreFields : List String :=
  ["attachment", "comment", "description", "issuekey", "issuelinks",
   "subtasks", "summary", "thumbnail"]

/-- Outcome of `render_field_data`: an ordinary return value (`None` or
a string), or the evaluation of a user-supplied code expression via
`eval_custom_field` (kept symbolic: evaluating arbitrary Python is the
security-sensitive act the properties are about). -/
inductive RenderResult where
  | value (v : Option String)
  | evalCode (code : String)
deriving DecidableEq, Repr

/-- `render_field_data(field_key, field, fields, verbose, allow_code)`,
embedded from the source. `tbl` is the `_fields` table; `R` applies a
builtin renderer by name, `F` applies a custom display callable by
name, and `S` is Python `str()`. -/
def render_field_data (R F : String → PyVal → PyVal → Option String)
    (S : PyVal → String) (tbl : List (String × FieldConfig))
    (field_key : String) (field : PyVal) (fields : PyVal)
    (verbose : Bool) (allow_code : Bool) : RenderResult :=
  match odLookup tbl field_key with
  | Option.none => .value none
  | Option.some field_config =>
    if ¬ truthy field then .value none
    else if field_config.verbose = some true ∧ verbose = false then .value none
    else if field_config.disabled = some true then .value none
    else
      match field_config.display with
      | Option.some (.bool r) => if ¬ r then .value none else .value (some (S field))
      | Option.some (.str r) =>
        if r ∉ fieldRendererNames then
          .value (some ("<invalid renderer: " ++ r ++ " for " ++ field_key ++ ">"))
        else .value (R r field fields)
      | Option.some (.fn f) => .value (F f field fields)
      | Option.none =>
        match field_config.code with
        | Option.some c =>
          if allow_code then .evalCode c else .value (some (S field))
        | Option.none => .value (some (S field))

/-- `apply_field_renderers(custom_field_defs)`, embedded from the
source; returns the `_fields` ordered dict it assigns. -/
def apply_field_renderers (custom_field_defs : List FieldConfig) :
    List (String × FieldConfig) :=
  if custom_field_defs.isEmpty then
    (baseFields.filter (fun f => f.id ∉ ignoreFields)).foldl
      (fun ret f => odSet ret f.id f) []
  else
    let base_fields := baseFields.foldl (fun d f => odSet d f.id f) []
    let custom_fields := custom_field_defs.foldl
      (fun cf f =>
        if f.id ∈ ignoreFields then cf
        else
          match odLookup base_fields f.id with
          | Option.some bf =>
            if bf.immutable then odSet cf f.id bf
            else
              odSet cf f.id
                (if bf.display.isSome ∧ f.display.isNone then
                  { f with display := bf.display }
                 else f)
          | Option.none => odSet cf f.id f) []
    let ret := base_fields.foldl
      (fun r p => if (odLookup custom_fields p.1).isSome then r else odSet r p.1 p.2) []
    custom_fields.foldl (fun r p => odSet r p.1 p.2) ret

/-- The `base_fields` ordered dict built by `apply_field_renderers` from
`_base_fields`. -/
def baseDict : List (String × FieldConfig) :=
  baseFields.foldl (fun d f => odSet d f.id f) []

/-- One step of the `custom_field_defs` loop of `apply_field_renderers`. -/
def customsStep (cf : List (String × FieldConfig)) (f : FieldConfig) :
    List (String × FieldConfig) :=
  if f.id ∈ ignoreFields then cf
  else
    match odLookup baseDict f.id with
    | Option.some bf =>
      if bf.immutable then odSet cf f.id bf
      else
        odSet cf f.id
          (if bf.display.isSome ∧ f.display.isNone then
            { f with display := bf.display }
           else f)
    | Option.none => odSet cf f.id f

/-- The `custom_fields` ordered dict of `apply_field_renderers`. -/
def customsOf (defs : List FieldConfig) : List (String × FieldConfig) :=
  defs.foldl customsStep []

/-- The first reordering loop of `apply_field_renderers`: base entries
whose key has no custom entry, in base order. -/
def ret1Of (defs : List FieldConfig) : List (String × FieldConfig) :=
  baseDict.foldl
    (fun r p => if (odLookup (customsOf defs) p.1).isSome then r else odSet r p.1 p.2) []

/-! ## Auxiliary predicates -/

/-- The catalog invariant of the spec: every `id` is among its own
aliases, and aliases never collide (case-insensitively) across two
different field entries. -/
def WFCatalog (cat : List FieldMetadata) : Prop :=
  (∀ f ∈ cat, f.id ∈ f.names) ∧
  (∀ f ∈ cat, ∀ g ∈ cat, ∀ n ∈ f.names, ∀ m ∈ g.names, lc n = lc m → f = g)

instance (cat : List FieldMetadata) : Decidable (WFCatalog cat) := by
  unfold WFCatalog; infer_instance

/-- The keys of an association list are pairwise distinct (the invariant
of every dict built through `odSet`). -/
def NodupKeys {α : Type} (d : List (String × α)) : Prop :=
  (d.map Prod.fst).Nodup

/-- Lookup of the last binding of a key (what repeated plain insertions
would leave visible). -/
def revLookup {α : Type} (d : List (String × α)) (k : String) : Option α :=
  (d.reverse.find? (fun p => p.1 = k)).map (fun p => p.2)

end Trolly


namespace Trolly

/-! ## Lemmas about ordered dictionaries -/

theorem odLookup_odSet_self {α : Type} (d : List (String × α)) (k : String) (v : α) :
    odLookup (odSet d k v) k = some v := by
  induction d with
  | nil => simp [odSet, odLookup]
  | cons p rest ih =>
    by_cases h : p.1 = k
    · simp [odSet, h, odLookup]
    · simpa [odSet, h, odLookup, List.find?_cons, h] using ih

theorem odLookup_odSet_ne {α : Type} (d : List (String × α)) (k k' : String) (v : α)
    (h : k' ≠ k) : odLookup (odSet d k' v) k = odLookup d k := by
  induction d with
  | nil => simp [odSet, odLookup, h]
  | cons p rest ih =>
    rcases p with ⟨pk, pv⟩
    by_cases hp : pk = k'
    · simp only [odSet, if_pos hp, odLookup, List.find?_cons]
      have h1 : (decide (k' = k)) = false := decide_eq_false h
      have h2 : (decide (pk = k)) = false := decide_eq_false (by rw [hp]; exact h)
      simp [h1, h2]
    · simp only [odSet, if_neg hp, odLookup, List.find?_cons]
      by_cases hk : pk = k
      · simp [hk]
      · have h2 : (decide (pk = k)) = false := decide_eq_false hk
        simp only [h2]
        simpa [odLookup] using ih

theorem mem_odSet {α : Type} {d : List (String × α)} {k : String} {v : α}
    {p : String × α} (h : p ∈ odSet d k v) : p = (k, v) ∨ p ∈ d := by
  induction d with
  | nil => simpa [odSet] using h
  | cons q rest ih =>
    by_cases hq : q.1 = k
    · rcases (by simpa [odSet, hq] using h : p = (k, v) ∨ p ∈ rest) with h' | h'
      · exact Or.inl h'
      · exact Or.inr (List.mem_cons_of_mem _ h')
    · rcases (by simpa [odSet, hq] using h : p = q ∨ p ∈ odSet rest k v) with h' | h'
      · exact Or.inr (h' ▸ List.mem_cons_self _ _)
      · rcases ih h' with h'' | h''
        · exact Or.inl h''
        · exact Or.inr (List.mem_cons_of_mem _ h'')

theorem keys_odSet_subset {α : Type} {d : List (String × α)} {k : String} {v : α}
    {x : String} (h : x ∈ (odSet d k v).map Prod.fst) :
    x = k ∨ x ∈ d.map Prod.fst := by
  obtain ⟨p, hp, rfl⟩ := List.mem_map.mp h
  rcases mem_odSet hp with h' | h'
  · exact Or.inl (by rw [h'])
  · exact Or.inr (List.mem_map_of_mem _ h')

theorem nodupKeys_odSet {α : Type} {d : List (String × α)} (k : String) (v : α)
    (h : NodupKeys d) : NodupKeys (odSet d k v) := by
  induction d with
  | nil => simp [odSet, NodupKeys]
  | cons p rest ih =>
    unfold NodupKeys at h ⊢
    rw [List.map_cons, List.nodup_cons] at h
    rcases p with ⟨pk, pv⟩
    by_cases hp : pk = k
    · rw [show odSet ((pk, pv) :: rest) k v = (k, v) :: rest from by simp [odSet, hp]]
      rw [List.map_cons, List.nodup_cons]
      exact ⟨hp ▸ h.1, h.2⟩
    · rw [show odSet ((pk, pv) :: rest) k v = (pk, pv) :: odSet rest k v from by
        simp [odSet, hp]]
      rw [List.map_cons, List.nodup_cons]
      refine ⟨?_, ih h.2⟩
      intro hx
      rcases keys_odSet_subset hx with h' | h'
      · exact hp h'
      · exact h.1 h'

theorem odLookup_eq_some_mem {α : Type} {d : List (String × α)} {k : String} {v : α}
    (h : odLookup d k = some v) : (k, v) ∈ d := by
  obtain ⟨p, hp, hv⟩ := Option.map_eq_some'.mp h
  have hk : p.1 = k := by simpa using List.find?_some hp
  have : p = (k, v) := by
    cases p; simp_all
  exact this ▸ List.mem_of_find?_eq_some hp

theorem odLookup_eq_none_not_mem {α : Type} {d : List (String × α)} {k : String}
    (h : odLookup d k = none) : ∀ v, (k, v) ∉ d := by
  intro v hv
  have hfind : d.find? (fun p => p.1 = k) = none := by
    cases hf : d.find? (fun p => p.1 = k) with
    | none => rfl
    | some p => rw [odLookup, hf] at h; simp at h
  have := List.find?_eq_none.mp hfind (k, v) hv
  simp at this

theorem revLookup_eq_odLookup {α : Type} (d : List (String × α)) (k : String)
    (h : NodupKeys d) : revLookup d k = odLookup d k := by
  induction d with
  | nil => simp [revLookup, odLookup]
  | cons p rest ih =>
    have hrest : NodupKeys rest := (List.nodup_cons.mp h).2
    have hnp : p.1 ∉ rest.map Prod.fst := (List.nodup_cons.mp h).1
    by_cases hp : p.1 = k
    · have hnone : rest.find? (fun q => q.1 = k) = none := by
        refine List.find?_eq_none.mpr ?_
        intro q hq hqk
        exact hnp (hp ▸ (by simpa using hqk : q.1 = k) ▸ List.mem_map_of_mem _ hq)
      have hrev : rest.reverse.find? (fun q => q.1 = k) = none := by
        refine List.find?_eq_none.mpr ?_
        intro q hq hqk
        exact List.find?_eq_none.mp hnone q (List.mem_reverse.mp hq) hqk
      simp [revLookup, odLookup, List.find?_append, hrev, List.find?_cons, hp]
    · have := ih hrest
      simp only [revLookup, odLookup] at this ⊢
      simp [List.reverse_cons, List.find?_append, List.find?_cons, hp, this,
        Option.or]
      cases hfr : rest.reverse.find? (fun q => q.1 = k) <;> simp_all [List.find?_cons, hp]

theorem odLookup_foldl_odSet {α : Type} (ps : List (String × α))
    (d : List (String × α)) (k : String) :
    odLookup (ps.foldl (fun r p => odSet r p.1 p.2) d) k
      = match revLookup ps k with
        | some v => some v
        | none => odLookup d k := by
  induction ps generalizing d with
  | nil => simp [revLookup]
  | cons p rest ih =>
    have hrw : revLookup (p :: rest) k
        = match revLookup rest k with
          | some v => some v
          | none => if p.1 = k then some p.2 else none := by
      simp only [revLookup, List.reverse_cons, List.find?_append]
      cases hfr : rest.reverse.find? (fun q => q.1 = k) <;>
        by_cases hp : p.1 = k <;> simp [Option.or, List.find?_cons, hp, hfr]
    rw [List.foldl_cons, ih, hrw]
    cases hfr : revLookup rest k with
    | some v => rfl
    | none =>
      by_cases hp : p.1 = k
      · simpa [hp] using odLookup_odSet_self d k p.2
      · simpa [hp] using odLookup_odSet_ne d k p.1 p.2 hp

theorem nodupKeys_foldl_odSet {α : Type} (ps : List (String × α))
    (d : List (String × α)) (h : NodupKeys d) :
    NodupKeys (ps.foldl (fun r p => odSet r p.1 p.2) d) := by
  induction ps generalizing d with
  | nil => exact h
  | cons p rest ih => exact ih _ (nodupKeys_odSet _ _ h)

theorem find?_filter_key {α : Type} (l : List (String × α)) (q : String × α → Bool)
    (k : String) (hq : ∀ p ∈ l, p.1 = k → q p = true) :
    (l.filter q).find? (fun p => p.1 = k) = l.find? (fun p => p.1 = k) := by
  induction l with
  | nil => simp
  | cons p rest ih =>
    have ihr := ih (fun p hp => hq p (List.mem_cons_of_mem _ hp))
    by_cases hp : p.1 = k
    · have := hq p (List.mem_cons_self _ _) hp
      simp [List.filter_cons, this, List.find?_cons, hp]
    · cases hqp : q p <;> simp [List.filter_cons, hqp, List.find?_cons, hp, ihr]

end Trolly

namespace Trolly

/-! ## Lemmas about the transmogrification engine -/

theorem resolve_of_alias (cat : List FieldMetadata) (f : FieldMetadata)
    (hwf : WFCatalog cat) (hf : f ∈ cat) (n : String) (hn : n ∈ f.names)
    (k : String) (hk : lc k = lc n) : resolve cat k = some f := by
  have hsome : (cat.find? (fun g => g.names.any (fun m => lc m = lc k))).isSome := by
    refine List.find?_isSome.mpr ⟨f, hf, ?_⟩
    simp only [List.any_eq_true]
    exact ⟨n, hn, by simp [hk]⟩
  obtain ⟨g, hg⟩ := Option.isSome_iff_exists.mp hsome
  have hgm : g ∈ cat := List.mem_of_find?_eq_some hg
  have hgp := List.find?_some hg
  simp only [List.any_eq_true, decide_eq_true_eq] at hgp
  obtain ⟨m, hm, hmk⟩ := hgp
  have hfg : f = g := hwf.2 f hf g hgm n hn m hm (by rw [← hk, hmk])
  rw [resolve, hg, hfg]

theorem transFrom_cons_skip (cat : List FieldMetadata) (kv : String × String)
    (rest : List (String × String)) (acc : List (String × Val))
    (h : resolve cat kv.1 = none) :
    transmogrifyFrom cat (kv :: rest) acc = transmogrifyFrom cat rest acc := by
  simp [transmogrifyFrom, h]

theorem transFrom_cons_ok (cat : List FieldMetadata) (kv : String × String)
    (rest : List (String × String)) (acc : List (String × Val))
    (f : FieldMetadata) (v : Val) (h1 : resolve cat kv.1 = some f)
    (h2 : coerce f.ftype f.allowed_values kv.2 = some v) :
    transmogrifyFrom cat (kv :: rest) acc
      = transmogrifyFrom cat rest (odSet acc f.id v) := by
  simp [transmogrifyFrom, h1, h2]

theorem transFrom_cons_err (cat : List FieldMetadata) (kv : String × String)
    (rest : List (String × String)) (acc : List (String × Val))
    (f : FieldMetadata) (h1 : resolve cat kv.1 = some f)
    (h2 : coerce f.ftype f.allowed_values kv.2 = none) :
    transmogrifyFrom cat (kv :: rest) acc = .error ⟨f.id, kv.2⟩ := by
  simp [transmogrifyFrom, h1, h2]

theorem transFrom_ok_of_unresolved (cat : List FieldMetadata)
    (input : List (String × String)) (acc : List (String × Val))
    (h : ∀ kv ∈ input, resolve cat kv.1 = none) :
    transmogrifyFrom cat input acc = .ok acc := by
  induction input with
  | nil => rfl
  | cons kv rest ih =>
    have h1 := h kv (List.mem_cons_self _ _)
    rw [transmogrifyFrom, h1]
    exact ih (fun kv' hm => h kv' (List.mem_cons_of_mem _ hm))

theorem transFrom_ok_mem (cat : List FieldMetadata)
    (input : List (String × String)) (acc out : List (String × Val))
    (h : transmogrifyFrom cat input acc = .ok out) :
    ∀ p ∈ out, p ∈ acc ∨ ∃ kv ∈ input, ∃ f, resolve cat kv.1 = some f ∧
      p.1 = f.id ∧ coerce f.ftype f.allowed_values kv.2 = some p.2 := by
  induction input generalizing acc with
  | nil =>
    intro p hp
    rw [transmogrifyFrom] at h
    cases h
    exact Or.inl hp
  | cons kv rest ih =>
    intro p hp
    cases hr : resolve cat kv.1 with
    | none =>
      rw [transFrom_cons_skip cat kv rest acc hr] at h
      rcases ih acc h p hp with hin | ⟨kv', hm, f, h1, h2, h3⟩
      · exact Or.inl hin
      · exact Or.inr ⟨kv', List.mem_cons_of_mem _ hm, f, h1, h2, h3⟩
    | some f =>
      cases hc : coerce f.ftype f.allowed_values kv.2 with
      | none => rw [transFrom_cons_err cat kv rest acc f hr hc] at h; cases h
      | some v =>
        rw [transFrom_cons_ok cat kv rest acc f v hr hc] at h
        rcases ih (odSet acc f.id v) h p hp with hin | ⟨kv', hm, f', h1, h2, h3⟩
        · rcases mem_odSet hin with h' | h'
          · refine Or.inr ⟨kv, List.mem_cons_self _ _, f, hr, ?_, ?_⟩
            · rw [h']
            · rw [h', hc]
          · exact Or.inl h'
        · exact Or.inr ⟨kv', List.mem_cons_of_mem _ hm, f', h1, h2, h3⟩

theorem transFrom_error_of_fail (cat : List FieldMetadata)
    (input : List (String × String)) (acc : List (String × Val))
    (h : ∃ kv ∈ input, ∃ f, resolve cat kv.1 = some f ∧
      coerce f.ftype f.allowed_values kv.2 = none) :
    ∃ e, transmogrifyFrom cat input acc = .error e ∧
      ∃ kv ∈ input, ∃ f, resolve cat kv.1 = some f ∧
        coerce f.ftype f.allowed_values kv.2 = none ∧
        e.fieldId = f.id ∧ e.raw = kv.2 := by
  induction input generalizing acc with
  | nil => obtain ⟨kv, hm, _⟩ := h; cases hm
  | cons kv rest ih =>
    obtain ⟨kv', hm, f', hr', hc'⟩ := h
    cases hr : resolve cat kv.1 with
    | none =>
      have hm' : kv' ∈ rest := by
        rcases List.mem_cons.mp hm with h' | h'
        · rw [h', hr] at hr'; cases hr'
        · exact h'
      rw [transFrom_cons_skip cat kv rest acc hr]
      obtain ⟨e, he, hw⟩ := ih acc ⟨kv', hm', f', hr', hc'⟩
      obtain ⟨kv'', hm'', rest'⟩ := hw
      exact ⟨e, he, kv'', List.mem_cons_of_mem _ hm'', rest'⟩
    | some f =>
      cases hc : coerce f.ftype f.allowed_values kv.2 with
      | none =>
        rw [transFrom_cons_err cat kv rest acc f hr hc]
        exact ⟨⟨f.id, kv.2⟩, rfl, kv, List.mem_cons_self _ _, f, hr, hc, rfl, rfl⟩
      | some v =>
        have hm' : kv' ∈ rest := by
          rcases List.mem_cons.mp hm with h' | h'
          · exfalso
            rw [h', hr] at hr'
            cases hr'
            rw [h', hc] at hc'
            cases hc'
          · exact h'
        rw [transFrom_cons_ok cat kv rest acc f v hr hc]
        obtain ⟨e, he, hw⟩ := ih (odSet acc f.id v) ⟨kv', hm', f', hr', hc'⟩
        obtain ⟨kv'', hm'', rest'⟩ := hw
        exact ⟨e, he, kv'', List.mem_cons_of_mem _ hm'', rest'⟩

theorem mapM_findAllowed_forall₂ (allowed : List String) :
    ∀ (toks cs : List String), toks.mapM (findAllowed allowed) = some cs →
      List.Forall₂ (fun t c => c ∈ allowed ∧ lc c = lc t) toks cs := by
  intro toks
  induction toks with
  | nil =>
    intro cs h
    simp only [List.mapM_nil, pure, Option.some.injEq] at h
    rw [← h]
    exact List.Forall₂.nil
  | cons t ts ih =>
    intro cs h
    rw [List.mapM_cons] at h
    simp only [bind, Option.bind_eq_some, pure, Option.some.injEq] at h
    obtain ⟨c, hc, cs', hcs', rfl⟩ := h
    have hcm : c ∈ allowed := List.mem_of_find?_eq_some hc
    have hcl : lc c = lc t := by simpa using List.find?_some hc
    exact List.Forall₂.cons ⟨hcm, hcl⟩ (ih cs' hcs')

theorem mapM_findAllowed_none (allowed : List String) (toks : List String)
    (h : ∃ t ∈ toks, ∀ a ∈ allowed, lc a ≠ lc t) :
    toks.mapM (findAllowed allowed) = none := by
  induction toks with
  | nil => obtain ⟨t, hm, _⟩ := h; cases hm
  | cons t ts ih =>
    rw [List.mapM_cons]
    obtain ⟨t', hm, ht'⟩ := h
    show (findAllowed allowed t).bind _ = none
    rcases List.mem_cons.mp hm with h' | h'
    · have hnone : findAllowed allowed t = none := by
        refine List.find?_eq_none.mpr ?_
        intro a ha
        simpa using h' ▸ ht' a ha
      rw [hnone, Option.none_bind]
    · cases hf : findAllowed allowed t with
      | none => rw [Option.none_bind]
      | some c =>
        rw [Option.some_bind]
        show (ts.mapM (findAllowed allowed)).bind _ = none
        rw [ih ⟨t', h', ht'⟩, Option.none_bind]

end Trolly

namespace Trolly

theorem coerce_str_passthrough {t : FieldType} {allowed : List String}
    {raw s : String} (h : coerce t allowed raw = some (Val.str s)) :
    (t = .string ∨ t = .any ∨ t = .user) ∧ s = raw := by
  cases t with
  | string => refine ⟨Or.inl rfl, ?_⟩; simp [coerce] at h; exact h.symm
  | any => refine ⟨Or.inr (Or.inl rfl), ?_⟩; simp [coerce] at h; exact h.symm
  | user => refine ⟨Or.inr (Or.inr rfl), ?_⟩; simp [coerce] at h; exact h.symm
  | number =>
    exfalso
    cases hp : parseFloatQ raw <;> simp [coerce, hp] at h
  | priority =>
    exfalso
    by_cases hs : titleCase raw ∈ severities <;> simp [coerce, hs] at h
  | option =>
    exfalso
    cases hp : findAllowed allowed raw <;> simp [coerce, hp] at h
  | array_of_options =>
    exfalso
    cases hp : (splitCommas raw).mapM (findAllowed allowed) <;> simp [coerce, hp] at h
  | version =>
    exfalso
    by_cases hs : (findAllowed allowed raw).isSome <;> simp [coerce, hs] at h
  | array_of_versions => exfalso; simp [coerce] at h
  | array_of_users => exfalso; simp [coerce] at h
  | array_of_strings =>
    exfalso
    cases hp : splitQuoted raw.data [] false <;> simp [coerce, hp] at h
  | array_of_groups => exfalso; simp [coerce] at h

/-! ## Claim theorems (transmogrification engine) -/

/-- C1: for a field of declared type `option`, the entire raw string is
one literal candidate, matched case-insensitively against the allowed
values without any splitting on commas: a comma-bearing raw string fails
coercion unless the exact composite string is itself an allowed value
(in which case the canonical casing is returned). -/
theorem option_scalar_rejects_composite (allowed : List String) (raw : String)
    (hc : ',' ∈ raw.data) :
    ((∀ a ∈ allowed, lc a ≠ lc raw) → coerce .option allowed raw = none) ∧
    (∀ a ∈ allowed, lc a = lc raw →
      ∃ c ∈ allowed, lc c = lc raw ∧
        coerce .option allowed raw = some (.valueObj c)) := by
  constructor
  · intro h
    have hnone : findAllowed allowed raw = none :=
      List.find?_eq_none.mpr (fun a ha => by simpa using h a ha)
    simp [coerce, hnone]
  · intro a ha hal
    have hsome : (findAllowed allowed raw).isSome :=
      List.find?_isSome.mpr ⟨a, ha, by simp [hal]⟩
    obtain ⟨c, hc'⟩ := Option.isSome_iff_exists.mp hsome
    refine ⟨c, List.mem_of_find?_eq_some hc', by simpa using List.find?_some hc', ?_⟩
    simp [coerce, hc']

theorem option_scalar_rejects_composite_witness :
    coerce FieldType.option ["One", "Two", "Three"] "One,Two,Three" = none :=
  (option_scalar_rejects_composite ["One", "Two", "Three"] "One,Two,Three"
    (by decide)).1 (by decide)

/-- C2: for a field of declared type `array_of_options`, the raw string
is split on commas, each token is trimmed and matched case-insensitively
against the allowed values; on success the output is the ordered list of
`{value: CanonicalValue}` objects in token order, and if any token fails
to match the whole coercion fails (all-or-nothing). -/
theorem array_of_options_tokenwise (allowed : List String) (raw : String) :
    (∀ cs, (splitCommas raw).mapM (findAllowed allowed) = some cs →
      coerce .array_of_options allowed raw
          = some (.listOf (cs.map Item.valueObj)) ∧
        List.Forall₂ (fun t c => c ∈ allowed ∧ lc c = lc t) (splitCommas raw) cs) ∧
    ((∃ t ∈ splitCommas raw, ∀ a ∈ allowed, lc a ≠ lc t) →
      coerce .array_of_options allowed raw = none) := by
  have hdef : coerce .array_of_options allowed raw
      = ((splitCommas raw).mapM (findAllowed allowed)).map
          (fun cs => Val.listOf (cs.map Item.valueObj)) := rfl
  constructor
  · intro cs h
    exact ⟨by rw [hdef, h]; rfl, mapM_findAllowed_forall₂ allowed _ cs h⟩
  · intro h
    rw [hdef, mapM_findAllowed_none allowed _ h]
    rfl

theorem array_of_options_tokenwise_witness :
    coerce FieldType.array_of_options ["One", "Two", "Three"] "one , TWO"
        = some (Val.listOf [Item.valueObj "One", Item.valueObj "Two"]) ∧
      List.Forall₂ (fun t c => c ∈ ["One", "Two", "Three"] ∧ lc c = lc t)
        (splitCommas "one , TWO") ["One", "Two"] :=
  (array_of_options_tokenwise ["One", "Two", "Three"] "one , TWO").1
    ["One", "Two"] (by decide)

/-- C3: input pairs whose key resolves to no catalog entry are silently
ignored: they produce no output entry and no error; an input of only
unresolvable keys yields the empty output record, and every entry of any
output record stems from a key that did resolve. -/
theorem unresolved_keys_silently_dropped (cat : List FieldMetadata)
    (input : List (String × String)) :
    ((∀ kv ∈ input, resolve cat kv.1 = none) → transmogrify cat input = .ok []) ∧
    (∀ out, transmogrify cat input = .ok out →
      ∀ p ∈ out, ∃ kv ∈ input, ∃ f, resolve cat kv.1 = some f ∧ p.1 = f.id) := by
  constructor
  · intro h
    exact transFrom_ok_of_unresolved cat input [] h
  · intro out hout p hp
    rcases transFrom_ok_mem cat input [] out hout p hp with hin | ⟨kv, hm, f, h1, h2, _⟩
    · cases hin
    · exact ⟨kv, hm, f, h1, h2⟩

theorem unresolved_keys_silently_dropped_witness :
    transmogrify fakeMetadata [("not_a_real_field", "one")] = .ok [] :=
  (unresolved_keys_silently_dropped fakeMetadata [("not_a_real_field", "one")]).1
    (by decide)

/-- C4: transmogrify is fail-fast and atomic on error — whenever some
resolved key's value fails coercion, the whole call returns a validation
error (no partial output record), and the error names the offending
field id and raw value of a failing pair. -/
theorem failfast_validation_error (cat : List FieldMetadata)
    (input : List (String × String))
    (h : ∃ kv ∈ input, ∃ f, resolve cat kv.1 = some f ∧
      coerce f.ftype f.allowed_values kv.2 = none) :
    ∃ e, transmogrify cat input = .error e ∧
      ∃ kv ∈ input, ∃ f, resolve cat kv.1 = some f ∧
        coerce f.ftype f.allowed_values kv.2 = none ∧
        e.fieldId = f.id ∧ e.raw = kv.2 :=
  transFrom_error_of_fail cat input [] h

theorem failfast_validation_error_witness :
    ∃ e, transmogrify fakeMetadata [("option_value", "Four"), ("description", "d")]
        = .error e ∧
      ∃ kv ∈ [("option_value", "Four"), ("description", "d")], ∃ f,
        resolve fakeMetadata kv.1 = some f ∧
        coerce f.ftype f.allowed_values kv.2 = none ∧
        e.fieldId = f.id ∧ e.raw = kv.2 :=
  failfast_validation_error fakeMetadata
    [("option_value", "Four"), ("description", "d")]
    ⟨("option_value", "Four"), by decide,
     { id := "customfield_1234578", names := ["customfield_1234578", "option_value"],
       ftype := .option, allowed_values := ["One", "Two", "Three"] },
     by decide, by decide⟩

/-- C5: alias resolution is case-insensitive and output-equivalent — for
a well-formed catalog, an input keyed by any casing of any alias of a
field yields exactly the same result as the input keyed by the canonical
id, and every output entry is keyed by the canonical id, never by the
alias as typed. -/
theorem alias_resolution_equivalent (cat : List FieldMetadata) (f : FieldMetadata)
    (n k raw : String) (hwf : WFCatalog cat) (hf : f ∈ cat)
    (hn : n ∈ f.names) (hk : lc k = lc n) :
    transmogrify cat [(k, raw)] = transmogrify cat [(f.id, raw)] ∧
    (∀ out, transmogrify cat [(k, raw)] = .ok out → ∀ p ∈ out, p.1 = f.id) := by
  have h1 : resolve cat k = some f := resolve_of_alias cat f hwf hf n hn k hk
  have h2 : resolve cat f.id = some f :=
    resolve_of_alias cat f hwf hf f.id (hwf.1 f hf) f.id rfl
  constructor
  · cases hc : coerce f.ftype f.allowed_values raw with
    | none =>
      rw [transmogrify, transmogrify, transFrom_cons_err cat (k, raw) [] [] f h1 hc,
        transFrom_cons_err cat (f.id, raw) [] [] f h2 hc]
    | some v =>
      rw [transmogrify, transmogrify, transFrom_cons_ok cat (k, raw) [] [] f v h1 hc,
        transFrom_cons_ok cat (f.id, raw) [] [] f v h2 hc]
  · intro out hout p hp
    rcases transFrom_ok_mem cat [(k, raw)] [] out hout p hp with
      hin | ⟨kv, hm, g, hg1, hg2, _⟩
    · cases hin
    · have hkv : kv = (k, raw) := by simpa using hm
      rw [hkv, h1] at hg1
      cases hg1
      exact hg2

theorem alias_resolution_equivalent_witness :
    transmogrify fakeMetadata [("DESCRIPTION", "x")]
      = transmogrify fakeMetadata [("description", "x")] :=
  (alias_resolution_equivalent fakeMetadata
    { id := "description", names := ["description", "Description"], ftype := .string }
    "Description" "DESCRIPTION" "x" (by decide) (by decide) (by decide) (by decide)).1

/-- C6: `version` and `array_of_versions` validate asymmetrically — a
scalar `version` raw string must match a known version identifier (else
a validation error; a known one yields `{name: raw}`), while
`array_of_versions` wraps every trimmed comma-separated token as
`{name: token}` in order with no existence validation. -/
theorem version_scalar_array_asymmetry (allowed : List String) (raw : String) :
    ((∀ a ∈ allowed, lc a ≠ lc raw) → coerce .version allowed raw = none) ∧
    ((∃ a ∈ allowed, lc a = lc raw) →
      coerce .version allowed raw = some (.nameObj raw)) ∧
    coerce .array_of_versions allowed raw
      = some (.listOf ((splitCommas raw).map Item.nameObj)) := by
  refine ⟨?_, ?_, rfl⟩
  · intro h
    have hnone : findAllowed allowed raw = none :=
      List.find?_eq_none.mpr (fun a ha => by simpa using h a ha)
    simp [coerce, hnone]
  · intro ⟨a, ha, hal⟩
    have hsome : (findAllowed allowed raw).isSome :=
      List.find?_isSome.mpr ⟨a, ha, by simp [hal]⟩
    simp [coerce, hsome]

theorem version_scalar_array_asymmetry_witness :
    coerce FieldType.version ["1.0.1", "1.0.2"] "999" = none ∧
    coerce FieldType.version ["1.0.1", "1.0.2"] "1.0.1" = some (Val.nameObj "1.0.1") ∧
    coerce FieldType.array_of_versions ["1.0.1", "1.0.2"] "999, 7"
      = some (Val.listOf [Item.nameObj "999", Item.nameObj "7"]) :=
  ⟨(version_scalar_array_asymmetry ["1.0.1", "1.0.2"] "999").1 (by decide),
   (version_scalar_array_asymmetry ["1.0.1", "1.0.2"] "1.0.1").2.1 (by decide),
   by rw [(version_scalar_array_asymmetry ["1.0.1", "1.0.2"] "999, 7").2.2]; decide⟩

/-- C7: for a field of declared type `number`, the raw string is parsed
as a floating-point number and the coerced value is numeric (raw "1"
maps to the number 1, not a string); an unparseable raw string fails
with a validation error. -/
theorem number_coerces_to_float (allowed : List String) (raw : String) :
    (parseFloatQ raw = none → coerce .number allowed raw = none) ∧
    (∀ q, parseFloatQ raw = some q → coerce .number allowed raw = some (.num q)) ∧
    coerce .number allowed "1" = some (.num 1) := by
  refine ⟨?_, ?_, ?_⟩
  · intro h
    simp [coerce, h]
  · intro q h
    simp [coerce, h]
  · have h1 : parseFloatQ "1" = some 1 := by decide
    simp [coerce, h1]

theorem number_coerces_to_float_witness :
    parseFloatQ "not a number" = none ∧
    coerce FieldType.number [] "not a number" = none :=
  ⟨by decide, (number_coerces_to_float [] "not a number").1 (by decide)⟩

/-- C8: round-trip idempotence where types allow it — any output entry
whose value is a plain string (the shape produced by the pass-through
types `string`, `any`, `user`) can be fed back to transmogrify as a raw
string under its canonical id, and the re-run yields the same coerced
value again. -/
theorem roundtrip_idempotent (cat : List FieldMetadata)
    (input : List (String × String)) (out : List (String × Val))
    (hwf : WFCatalog cat) (h : transmogrify cat input = .ok out)
    (k s : String) (hm : (k, Val.str s) ∈ out) :
    transmogrify cat [(k, s)] = .ok [(k, Val.str s)] := by
  rcases transFrom_ok_mem cat input [] out h (k, Val.str s) hm with
    hin | ⟨kv, _, f, hr, hid, hc⟩
  · cases hin
  · have hfcat : f ∈ cat := List.mem_of_find?_eq_some hr
    obtain ⟨htyp, _⟩ := coerce_str_passthrough hc
    have hrid : resolve cat f.id = some f :=
      resolve_of_alias cat f hwf hfcat f.id (hwf.1 f hfcat) f.id rfl
    have hid' : k = f.id := hid
    have hcs : coerce f.ftype f.allowed_values s = some (Val.str s) := by
      rcases htyp with h' | h' | h' <;> rw [h'] <;> rfl
    rw [transmogrify, hid',
      transFrom_cons_ok cat (f.id, s) [] [] f (Val.str s) hrid hcs,
      transmogrifyFrom]
    simp [odSet]

theorem roundtrip_idempotent_witness :
    transmogrify fakeMetadata [("Description", "some text")]
        = .ok [("description", Val.str "some text")] ∧
    transmogrify fakeMetadata [("description", "some text")]
        = .ok [("description", Val.str "some text")] :=
  ⟨by decide, roundtrip_idempotent fakeMetadata [("Description", "some text")]
      [("description", Val.str "some text")] (by decide) (by decide)
      "description" "some text" (by decide)⟩

end Trolly

namespace Trolly

/-! ## Claim theorems (rendering subsystem) -/

/-- C9: user-supplied code expressions are gated — `render_field_data`
reaches `eval_custom_field` only when `allow_code` is true and the
field's configuration has a `code` entry but no `display` entry; hence
with `allow_code` false (the default) or a `display` entry present, no
user-supplied code expression is ever evaluated. -/
theorem render_code_gated (R F : String → PyVal → PyVal → Option String)
    (S : PyVal → String) (tbl : List (String × FieldConfig))
    (field_key : String) (field fields : PyVal) (verbose allow_code : Bool)
    (c : String)
    (h : render_field_data R F S tbl field_key field fields verbose allow_code
      = .evalCode c) :
    allow_code = true ∧ ∃ cfg, odLookup tbl field_key = some cfg ∧
      cfg.code = some c ∧ cfg.display = none := by
  unfold render_field_data at h
  split at h
  · simp at h
  · rename_i cfg hlk
    split at h
    · simp at h
    · split at h
      · simp at h
      · split at h
        · simp at h
        · split at h
          · split at h <;> simp at h
          · split at h <;> simp at h
          · simp at h
          · rename_i hdisp
            split at h
            · rename_i c' hcode
              split at h
              · rename_i hac
                have hc' : c' = c := by
                  have := h
                  injection this
                exact ⟨hac, cfg, hlk, by rw [hcode, hc'], hdisp⟩
              · simp at h
            · simp at h

theorem render_code_gated_witness :
    (true : Bool) = true ∧ ∃ cfg : FieldConfig,
      odLookup [("x", ({ id := "x", name := "x", code := some "os.getenv" } :
        FieldConfig))] "x" = some cfg ∧
      cfg.code = some "os.getenv" ∧ cfg.display = none :=
  render_code_gated (fun _ _ _ => none) (fun _ _ _ => none) (fun _ => "")
    [("x", { id := "x", name := "x", code := some "os.getenv" })]
    "x" (.str "v") (.dict 0) false true "os.getenv" (by decide)

end Trolly

namespace Trolly

/-! ## Lemmas about `apply_field_renderers` -/

theorem apply_field_renderers_eq (defs : List FieldConfig) :
    apply_field_renderers defs =
      if defs.isEmpty then
        (baseFields.filter (fun f => f.id ∉ ignoreFields)).foldl
          (fun ret f => odSet ret f.id f) []
      else
        (customsOf defs).foldl (fun r p => odSet r p.1 p.2) (ret1Of defs) := rfl

theorem baseDict_pairs :
    baseDict = (baseFields.map (fun f => (f.id, f))).foldl
      (fun d p => odSet d p.1 p.2) [] := by
  rw [List.foldl_map]
  rfl

theorem customsStep_ignore (cf : List (String × FieldConfig)) (f : FieldConfig)
    (h : f.id ∈ ignoreFields) : customsStep cf f = cf := by
  simp [customsStep, h]

theorem customsStep_immutable (cf : List (String × FieldConfig)) (f : FieldConfig)
    (bf : FieldConfig) (hig : f.id ∉ ignoreFields)
    (hbf : odLookup baseDict f.id = some bf) (him : bf.immutable = true) :
    customsStep cf f = odSet cf f.id bf := by
  simp [customsStep, hig, hbf, him]

theorem customsStep_mutable (cf : List (String × FieldConfig)) (f : FieldConfig)
    (bf : FieldConfig) (hig : f.id ∉ ignoreFields)
    (hbf : odLookup baseDict f.id = some bf) (him : bf.immutable = false) :
    customsStep cf f
      = odSet cf f.id
          (if bf.display.isSome ∧ f.display.isNone then
            { f with display := bf.display }
           else f) := by
  simp [customsStep, hig, hbf, him]

theorem customsStep_new (cf : List (String × FieldConfig)) (f : FieldConfig)
    (hig : f.id ∉ ignoreFields) (hbf : odLookup baseDict f.id = none) :
    customsStep cf f = odSet cf f.id f := by
  simp [customsStep, hig, hbf]

theorem customs_fold_invariant (id : String) (cfg : FieldConfig)
    (hb : odLookup baseDict id = some cfg) (him : cfg.immutable = true)
    (ds : List FieldConfig) :
    ∀ cf0 : List (String × FieldConfig),
      (∀ v, (id, v) ∈ cf0 → v = cfg) → NodupKeys cf0 →
      (∀ v, (id, v) ∈ ds.foldl customsStep cf0 → v = cfg) ∧
        NodupKeys (ds.foldl customsStep cf0) := by
  induction ds with
  | nil => intro cf0 h1 h2; exact ⟨h1, h2⟩
  | cons f ds ih =>
    intro cf0 h1 h2
    rw [List.foldl_cons]
    by_cases hig : f.id ∈ ignoreFields
    · rw [customsStep_ignore cf0 f hig]
      exact ih cf0 h1 h2
    · cases hbf : odLookup baseDict f.id with
      | none =>
        rw [customsStep_new cf0 f hig hbf]
        have hne : f.id ≠ id := by
          intro he
          rw [he, hb] at hbf
          cases hbf
        refine ih _ ?_ (nodupKeys_odSet _ _ h2)
        intro v hv
        rcases mem_odSet hv with h' | h'
        · exact absurd (congrArg Prod.fst h').symm hne
        · exact h1 v h'
      | some bf =>
        cases hbi : bf.immutable with
        | true =>
          rw [customsStep_immutable cf0 f bf hig hbf hbi]
          refine ih _ ?_ (nodupKeys_odSet _ _ h2)
          intro v hv
          rcases mem_odSet hv with h' | h'
          · have hfid : f.id = id := (congrArg Prod.fst h').symm
            have : bf = cfg := by
              rw [hfid, hb] at hbf
              exact (Option.some.inj hbf).symm
            exact (congrArg Prod.snd h').trans this
          · exact h1 v h'
        | false =>
          rw [customsStep_mutable cf0 f bf hig hbf hbi]
          have hne : f.id ≠ id := by
            intro he
            rw [he, hb] at hbf
            have : bf = cfg := (Option.some.inj hbf).symm
            rw [this, him] at hbi
            cases hbi
          refine ih _ ?_ (nodupKeys_odSet _ _ h2)
          intro v hv
          rcases mem_odSet hv with h' | h'
          · exact absurd (congrArg Prod.fst h').symm hne
          · exact h1 v h'

theorem foldl_odSet_skip {α : Type} (l : List (String × α)) (q : String × α → Bool)
    (init : List (String × α)) :
    l.foldl (fun r p => if q p then r else odSet r p.1 p.2) init
      = (l.filter (fun p => ! q p)).foldl (fun r p => odSet r p.1 p.2) init := by
  induction l generalizing init with
  | nil => rfl
  | cons p rest ih =>
    cases hq : q p <;> simp [List.filter_cons, hq, List.foldl_cons, ih]

theorem revLookup_filter {α : Type} (l : List (String × α)) (q : String × α → Bool)
    (k : String) (hq : ∀ p ∈ l, p.1 = k → q p = true) :
    revLookup (l.filter q) k = revLookup l k := by
  unfold revLookup
  rw [← List.filter_reverse]
  rw [find?_filter_key l.reverse q k (fun p hp => hq p (List.mem_reverse.mp hp))]

theorem nodupKeys_baseDict : NodupKeys baseDict := by
  rw [baseDict_pairs]
  exact nodupKeys_foldl_odSet _ _ (by simp [NodupKeys])

theorem afr_immutable_lookup (defs : List FieldConfig) (id : String)
    (cfg : FieldConfig) (hb : odLookup baseDict id = some cfg)
    (him : cfg.immutable = true) (hig : id ∉ ignoreFields) :
    odLookup (apply_field_renderers defs) id = some cfg := by
  have hbrev : revLookup (baseFields.map (fun f => (f.id, f))) id = some cfg := by
    have hfold := odLookup_foldl_odSet (baseFields.map (fun f => (f.id, f))) [] id
    rw [← baseDict_pairs] at hfold
    cases hrl : revLookup (baseFields.map (fun f => (f.id, f))) id with
    | none =>
      rw [hrl] at hfold
      rw [hb] at hfold
      simp [odLookup] at hfold
    | some v =>
      rw [hrl] at hfold
      rw [hb] at hfold
      exact hfold.symm
  rw [apply_field_renderers_eq]
  by_cases hdefs : defs.isEmpty
  · rw [if_pos hdefs]
    have hconv : (baseFields.filter (fun f => f.id ∉ ignoreFields)).foldl
        (fun ret f => odSet ret f.id f) []
        = ((baseFields.filter (fun f => f.id ∉ ignoreFields)).map
            (fun f => (f.id, f))).foldl (fun d p => odSet d p.1 p.2) [] := by
      rw [List.foldl_map]
    rw [hconv, odLookup_foldl_odSet]
    have hmapfilter : (baseFields.filter (fun f => f.id ∉ ignoreFields)).map
        (fun f => (f.id, f))
        = (baseFields.map (fun f => (f.id, f))).filter (fun p => p.1 ∉ ignoreFields) := by
      rw [List.filter_map]
      rfl
    rw [hmapfilter]
    rw [revLookup_filter _ _ id (fun p _ hpk => by simp [hpk, hig])]
    rw [hbrev]
  · rw [if_neg hdefs]
    obtain ⟨hmem, hnd⟩ := customs_fold_invariant id cfg hb him defs []
      (fun v hv => absurd hv (List.not_mem_nil _)) (by simp [NodupKeys])
    rw [show List.foldl customsStep [] defs = customsOf defs from rfl] at hmem hnd
    rw [odLookup_foldl_odSet]
    cases hcl : odLookup (customsOf defs) id with
    | some w =>
      have hw : w = cfg := hmem w (odLookup_eq_some_mem hcl)
      have hr : revLookup (customsOf defs) id = some cfg := by
        rw [revLookup_eq_odLookup _ _ hnd, hcl, hw]
      rw [hr]
    | none =>
      have hr : revLookup (customsOf defs) id = none := by
        rw [revLookup_eq_odLookup _ _ hnd, hcl]
      rw [hr]
      show odLookup (ret1Of defs) id = some cfg
      unfold ret1Of
      rw [foldl_odSet_skip, odLookup_foldl_odSet]
      have hfil : revLookup
          (baseDict.filter (fun p => ! (odLookup (customsOf defs) p.1).isSome)) id
          = revLookup baseDict id := by
        refine revLookup_filter _ _ id ?_
        intro p _ hpk
        rw [hpk, hcl]
        rfl
      rw [hfil, revLookup_eq_odLookup _ _ nodupKeys_baseDict, hb]

/-- C10: immutable base fields survive every merge — for every list of
custom field definitions passed to `apply_field_renderers`, each base
field definition with `immutable` set maps, in the resulting field
table, to the unchanged base definition; a custom definition with the
same id never replaces it or alters its renderer. -/
theorem immutable_base_fields_survive (defs : List FieldConfig)
    (cfg : FieldConfig) (hmem : cfg ∈ baseFields) (him : cfg.immutable = true) :
    odLookup (apply_field_renderers defs) cfg.id = some cfg := by
  have hconc : ∀ c ∈ baseFields, c.immutable = true →
      odLookup baseDict c.id = some c ∧ c.id ∉ ignoreFields := by decide
  obtain ⟨hb, hig⟩ := hconc cfg hmem him
  exact afr_immutable_lookup defs cfg.id cfg hb him hig

theorem immutable_base_fields_survive_witness :
    odLookup (apply_field_renderers
        [{ id := "issuetype", name := "Custom", display := some (.str "string") }])
        "issuetype"
      = some { id := "issuetype", name := "Issue Type", immutable := true,
               display := some (.str "name") } :=
  immutable_base_fields_survive
    [{ id := "issuetype", name := "Custom", display := some (.str "string") }]
    { id := "issuetype", name := "Issue Type", immutable := true,
      display := some (.str "name") } (by decide) (by decide)

end Trolly

/-! ## The test suite of `jirate/tests/test_input.py`, checked against
the modelled engine -/

section TestSuite
open Trolly

example : transmogrify fakeMetadata [("description", "This is a description")]
    = .ok [("description", .str "This is a description")] := by decide

example : transmogrify fakeMetadata [("Description", "This is a description")]
    = .ok [("description", .str "This is a description")] := by decide

example : transmogrify fakeMetadata [("Priority", "blocker")]
    = .ok [("priority", .nameObj "Blocker")] := by decide

example : transmogrify fakeMetadata [("fixed_in_build", "build123")]
    = .ok [("customfield_1234567", .str "build123")] := by decide

example : transmogrify fakeMetadata [("score", "1")]
    = .ok [("customfield_1234568", .num 1)] := by decide

example : transmogrify fakeMetadata [("array_of_options", "One,Two")]
    = .ok [("customfield_1234569", .listOf [.valueObj "One", .valueObj "Two"])] := by
  decide

example : transmogrify fakeMetadata [("option_value", "One,Two,Three")]
    = .error ⟨"customfield_1234578", "One,Two,Three"⟩ := by decide

example : transmogrify fakeMetadata [("array_of_versions", "1.0.1,1.0.2")]
    = .ok [("customfield_1234570", .listOf [.nameObj "1.0.1", .nameObj "1.0.2"])] := by
  decide

example : transmogrify fakeMetadata [("array_of_users", "user1,user2")]
    = .ok [("customfield_1234571", .listOf [.nameObj "user1", .nameObj "user2"])] := by
  decide

example : transmogrify fakeMetadata [("array_of_strings", "\"string one\",\"string 2\"")]
    = .ok [("customfield_1234572", .listOf [.str "string one", .str "string 2"])] := by
  decide

example : transmogrify fakeMetadata [("array_of_groups", "group1,group2")]
    = .ok [("customfield_1234573", .listOf [.nameObj "group1", .nameObj "group2"])] := by
  decide

example : transmogrify fakeMetadata [("any_value", "one,2")]
    = .ok [("customfield_1234574", .str "one,2")] := by decide

example : transmogrify fakeMetadata [("option_value", "one")]
    = .ok [("customfield_1234578", .valueObj "One")] := by decide

example : transmogrify fakeMetadata [("option_value", "Four")]
    = .error ⟨"customfield_1234578", "Four"⟩ := by decide

example : transmogrify fakeMetadata [("not_a_real_field", "one")] = .ok [] := by decide

example : transmogrify fakeMetadata [("User Value", "user1")]
    = .ok [("customfield_1234580", .str "user1")] := by decide

example : transmogrify fakeMetadata [("version_value", "1.0.1")]
    = .ok [("customfield_1234581", .nameObj "1.0.1")] := by decide

example : transmogrify fakeMetadata [("version_value", "999")]
    = .error ⟨"customfield_1234581", "999"⟩ := by decide

end TestSuite
